import Mathlib

/-!
Shallow embedding of `src/rate_limiters.py`, a collection of five rate
limiting algorithms (fixed window counter, sliding window log, sliding
window counter, token bucket, leaky bucket), together with proofs about
their behaviour.

Modelling choices, all read off the Python source:
* wall-clock times (`time.time()`, a float) are rational numbers `ℚ`;
  the fixed window counter truncates to `int(time.time())`, so its
  times are integers `ℤ`;
* Python `//` on integers is floor division, embedded as `Int.fdiv`;
* token and level quantities (floats in Python) are rationals;
* each limiter keeps a per-client dictionary; a dictionary is embedded
  as a total function `K → Option S` (`none` = key absent), and one
  `is_allowed` call is split into a per-key transition (`stepKey`) and
  the dictionary-level transition (`step`) that applies it at one key.
-/

namespace RateLimit

/-- Configuration of `FixedWindowCounter`: the `__init__` parameters
`window_size` and `max_requests` (Python ints). -/
structure FixedWindowCounter where
  window_size : Int
  max_requests : Int
  deriving Repr, DecidableEq

/-- Configuration of `SlidingWindowLog`: `window_size`, `max_requests`. -/
structure SlidingWindowLog where
  window_size : Int
  max_requests : Int
  deriving Repr, DecidableEq

/-- Configuration of `SlidingWindowCounter`: `window_size`, `max_requests`. -/
structure SlidingWindowCounter where
  window_size : Int
  max_requests : Int
  deriving Repr, DecidableEq

/-- Configuration of `TokenBucket`: `capacity` (int) and `refill_rate`
(float, embedded as `ℚ`). -/
structure TokenBucket where
  capacity : Int
  refill_rate : ℚ
  deriving Repr, DecidableEq

/-- Configuration of `LeakyBucket`: `capacity` (int) and `leak_rate`
(float, embedded as `ℚ`). -/
structure LeakyBucket where
  capacity : Int
  leak_rate : ℚ
  deriving Repr, DecidableEq

/-- `FixedWindowCounter.__init__` stores its two arguments unconditionally:
the source has no validation and no failure path, so construction always
succeeds.  The `Except` result type makes the (absent) rejection behaviour
of the constructor statable. -/
def FixedWindowCounter.init (window_size max_requests : Int) :
    Except String FixedWindowCounter :=
  .ok ⟨window_size, max_requests⟩

/-- `SlidingWindowLog.__init__`: stores its arguments, never fails. -/
def SlidingWindowLog.init (window_size max_requests : Int) :
    Except String SlidingWindowLog :=
  .ok ⟨window_size, max_requests⟩

/-- `SlidingWindowCounter.__init__`: stores its arguments, never fails. -/
def SlidingWindowCounter.init (window_size max_requests : Int) :
    Except String SlidingWindowCounter :=
  .ok ⟨window_size, max_requests⟩

/-- `TokenBucket.__init__`: stores its arguments, never fails. -/
def TokenBucket.init (capacity : Int) (refill_rate : ℚ) :
    Except String TokenBucket :=
  .ok ⟨capacity, refill_rate⟩

/-- `LeakyBucket.__init__`: stores its arguments, never fails. -/
def LeakyBucket.init (capacity : Int) (leak_rate : ℚ) :
    Except String LeakyBucket :=
  .ok ⟨capacity, leak_rate⟩

/-- One `FixedWindowCounter.is_allowed` call restricted to a single
client's entry.  `st` is the stored `(window_start, request_count)` pair
(`none` when the key is absent), `now` is `int(time.time())`.  Returns
the decision and the stored pair after the call.  Mirrors the source:
compute `current_window = (current_time // window_size) * window_size`;
absent key stores `(current_window, 1)` and allows; same window and
`count < max_requests` increments and allows; same window otherwise
denies leaving the pair unchanged; a different window resets to
`(current_window, 1)` and allows. -/
def FixedWindowCounter.stepKey (cfg : FixedWindowCounter)
    (st : Option (Int × Int)) (now : Int) : Bool × (Int × Int) :=
  let current_window := (Int.fdiv now cfg.window_size) * cfg.window_size
  match st with
  | none => (true, (current_window, 1))
  | some (window_start, count) =>
    if window_start = current_window then
      if count < cfg.max_requests then (true, (current_window, count + 1))
      else (false, (window_start, count))
    else (true, (current_window, 1))

/-- One `SlidingWindowLog.is_allowed` call restricted to a single
client's log.  The source prunes the stored log (keeping timestamps
`ts > now - window_size`) only when the key is present, then reads the
log through a `defaultdict` (an absent key yields `[]`), appends `now`
and allows when the pruned length is below `max_requests`, otherwise
denies.  After the call the key is always present. -/
def SlidingWindowLog.stepKey (cfg : SlidingWindowLog)
    (st : Option (List ℚ)) (now : ℚ) : Bool × List ℚ :=
  let window_start := now - (cfg.window_size : ℚ)
  let l := match st with
    | some l => l.filter (fun ts => decide (window_start < ts))
    | none => []
  if (l.length : Int) < cfg.max_requests then (true, l ++ [now])
  else (false, l)

/-- One `SlidingWindowCounter.is_allowed` call restricted to a single
client's list.  The source prunes unconditionally through the
`defaultdict` (absent key yields `[]`), then appends and allows when the
pruned length is below `max_requests`, otherwise denies. -/
def SlidingWindowCounter.stepKey (cfg : SlidingWindowCounter)
    (st : Option (List ℚ)) (now : ℚ) : Bool × List ℚ :=
  let window_start := now - (cfg.window_size : ℚ)
  let l := (st.getD []).filter (fun ts => decide (window_start < ts))
  if (l.length : Int) < cfg.max_requests then (true, l ++ [now])
  else (false, l)

/-- One `TokenBucket.is_allowed` call restricted to a single client's
bucket `(tokens, last_refill_time)`.  An absent key stores
`(capacity, now)` and allows without deducting a token.  Otherwise the
bucket is refilled lazily, `tokens = min(capacity, tokens + elapsed *
refill_rate)`; if `tokens >= 1` one token is deducted and the call
allows, else it denies; in both cases `(tokens, now)` is stored. -/
def TokenBucket.stepKey (cfg : TokenBucket)
    (st : Option (ℚ × ℚ)) (now : ℚ) : Bool × (ℚ × ℚ) :=
  match st with
  | none => (true, ((cfg.capacity : ℚ), now))
  | some (tokens, last_refill) =>
    let elapsed := now - last_refill
    let tokens := min (cfg.capacity : ℚ) (tokens + elapsed * cfg.refill_rate)
    if 1 ≤ tokens then (true, (tokens - 1, now))
    else (false, (tokens, now))

/-- One `LeakyBucket.is_allowed` call restricted to a single client's
bucket `(requests_in_bucket, last_leak_time)`.  An absent key stores
`(1, now)` and allows.  Otherwise the bucket leaks,
`requests = max(0, requests - elapsed * leak_rate)`; if
`requests < capacity` the request is added and the call allows, else it
denies; in both cases `(requests, now)` is stored. -/
def LeakyBucket.stepKey (cfg : LeakyBucket)
    (st : Option (ℚ × ℚ)) (now : ℚ) : Bool × (ℚ × ℚ) :=
  match st with
  | none => (true, (1, now))
  | some (requests, last_leak) =>
    let elapsed := now - last_leak
    let requests := max 0 (requests - elapsed * cfg.leak_rate)
    if requests < (cfg.capacity : ℚ) then (true, (requests + 1, now))
    else (false, (requests, now))

/-- `FixedWindowCounter.is_allowed` on the whole per-client dictionary:
apply the per-key transition at `k` and store the result there. -/
def FixedWindowCounter.step {K : Type} [DecidableEq K] (cfg : FixedWindowCounter)
    (σ : K → Option (Int × Int)) (k : K) (now : Int) :
    Bool × (K → Option (Int × Int)) :=
  let r := FixedWindowCounter.stepKey cfg (σ k) now
  (r.1, Function.update σ k (some r.2))

/-- `SlidingWindowLog.is_allowed` on the whole dictionary. -/
def SlidingWindowLog.step {K : Type} [DecidableEq K] (cfg : SlidingWindowLog)
    (σ : K → Option (List ℚ)) (k : K) (now : ℚ) :
    Bool × (K → Option (List ℚ)) :=
  let r := SlidingWindowLog.stepKey cfg (σ k) now
  (r.1, Function.update σ k (some r.2))

/-- `SlidingWindowCounter.is_allowed` on the whole dictionary. -/
def SlidingWindowCounter.step {K : Type} [DecidableEq K] (cfg : SlidingWindowCounter)
    (σ : K → Option (List ℚ)) (k : K) (now : ℚ) :
    Bool × (K → Option (List ℚ)) :=
  let r := SlidingWindowCounter.stepKey cfg (σ k) now
  (r.1, Function.update σ k (some r.2))

/-- `TokenBucket.is_allowed` on the whole dictionary. -/
def TokenBucket.step {K : Type} [DecidableEq K] (cfg : TokenBucket)
    (σ : K → Option (ℚ × ℚ)) (k : K) (now : ℚ) :
    Bool × (K → Option (ℚ × ℚ)) :=
  let r := TokenBucket.stepKey cfg (σ k) now
  (r.1, Function.update σ k (some r.2))

/-- `LeakyBucket.is_allowed` on the whole dictionary. -/
def LeakyBucket.step {K : Type} [DecidableEq K] (cfg : LeakyBucket)
    (σ : K → Option (ℚ × ℚ)) (k : K) (now : ℚ) :
    Bool × (K → Option (ℚ × ℚ)) :=
  let r := LeakyBucket.stepKey cfg (σ k) now
  (r.1, Function.update σ k (some r.2))

/-- A sequence of `FixedWindowCounter.is_allowed` calls for one key at the
given times: the list of decisions and the final stored pair. -/
def FixedWindowCounter.runKey (cfg : FixedWindowCounter)
    (st : Option (Int × Int)) : List Int → List Bool × Option (Int × Int)
  | [] => ([], st)
  | t :: ts =>
    let r := FixedWindowCounter.stepKey cfg st t
    let rest := FixedWindowCounter.runKey cfg (some r.2) ts
    (r.1 :: rest.1, rest.2)

/-- A sequence of `TokenBucket.is_allowed` calls for one key. -/
def TokenBucket.runKey (cfg : TokenBucket)
    (st : Option (ℚ × ℚ)) : List ℚ → List Bool × Option (ℚ × ℚ)
  | [] => ([], st)
  | t :: ts =>
    let r := TokenBucket.stepKey cfg st t
    let rest := TokenBucket.runKey cfg (some r.2) ts
    (r.1 :: rest.1, rest.2)

/-- A sequence of `LeakyBucket.is_allowed` calls for one key. -/
def LeakyBucket.runKey (cfg : LeakyBucket)
    (st : Option (ℚ × ℚ)) : List ℚ → List Bool × Option (ℚ × ℚ)
  | [] => ([], st)
  | t :: ts =>
    let r := LeakyBucket.stepKey cfg st t
    let rest := LeakyBucket.runKey cfg (some r.2) ts
    (r.1 :: rest.1, rest.2)

/-- A sequence of `SlidingWindowLog.is_allowed` calls for one key,
recording each call's time together with its decision. -/
def SlidingWindowLog.traceKey (cfg : SlidingWindowLog)
    (st : Option (List ℚ)) : List ℚ → List (ℚ × Bool)
  | [] => []
  | t :: ts =>
    let r := SlidingWindowLog.stepKey cfg st t
    (t, r.1) :: SlidingWindowLog.traceKey cfg (some r.2) ts

/-- A sequence of `SlidingWindowLog.is_allowed` calls on the whole
dictionary, for a list of `(client, time)` events. -/
def SlidingWindowLog.run {K : Type} [DecidableEq K] (cfg : SlidingWindowLog)
    (σ : K → Option (List ℚ)) : List (K × ℚ) → List Bool × (K → Option (List ℚ))
  | [] => ([], σ)
  | e :: es =>
    let r := SlidingWindowLog.step cfg σ e.1 e.2
    let rest := SlidingWindowLog.run cfg r.2 es
    (r.1 :: rest.1, rest.2)

/-- A sequence of `SlidingWindowCounter.is_allowed` calls on the whole
dictionary. -/
def SlidingWindowCounter.run {K : Type} [DecidableEq K] (cfg : SlidingWindowCounter)
    (σ : K → Option (List ℚ)) : List (K × ℚ) → List Bool × (K → Option (List ℚ))
  | [] => ([], σ)
  | e :: es =>
    let r := SlidingWindowCounter.step cfg σ e.1 e.2
    let rest := SlidingWindowCounter.run cfg r.2 es
    (r.1 :: rest.1, rest.2)

/-- A sequence of `TokenBucket.is_allowed` calls on the whole dictionary:
the final dictionary after a list of `(client, time)` events. -/
def TokenBucket.run {K : Type} [DecidableEq K] (cfg : TokenBucket)
    (σ : K → Option (ℚ × ℚ)) : List (K × ℚ) → K → Option (ℚ × ℚ)
  | [] => σ
  | e :: es => TokenBucket.run cfg (TokenBucket.step cfg σ e.1 e.2).2 es

/-- The times of the accepted calls of a recorded trace. -/
def acceptedTimes (tr : List (ℚ × Bool)) : List ℚ :=
  (tr.filter (fun p => p.2)).map Prod.fst

/-- How many entries of `l` lie in the trailing interval `(t - W, t]`. -/
def countIn (W : Int) (t : ℚ) (l : List ℚ) : ℕ :=
  (l.filter (fun s => decide (t - (W : ℚ) < s ∧ s ≤ t))).length

/-- C3: a `TokenBucket.is_allowed` call on a key with stored state
`(tokens, lastRefill)` computes the lazily refilled amount
`tokens' = min(capacity, tokens + (now - lastRefill) * refillRate)`;
if `tokens' ≥ 1` it allows and stores `(tokens' - 1, now)`, otherwise it
denies and still stores `(tokens', now)`: the partial refill is
persisted even on denial. -/
theorem tokenBucket_refill_step (cfg : TokenBucket) (tokens last_refill now : ℚ) :
    TokenBucket.stepKey cfg (some (tokens, last_refill)) now =
      (if 1 ≤ min (cfg.capacity : ℚ) (tokens + (now - last_refill) * cfg.refill_rate)
       then (true, (min (cfg.capacity : ℚ) (tokens + (now - last_refill) * cfg.refill_rate) - 1, now))
       else (false, (min (cfg.capacity : ℚ) (tokens + (now - last_refill) * cfg.refill_rate), now))) :=
  rfl

/-- C9: when a `SlidingWindowLog.is_allowed` call denies, the stored log
afterwards is exactly the old log with expired entries
(`ts ≤ now - windowSize`) pruned: nothing is appended and no in-window
timestamp is removed. -/
theorem slidingWindowLog_denial_frame (cfg : SlidingWindowLog) (log : List ℚ) (now : ℚ)
    (hdeny : (SlidingWindowLog.stepKey cfg (some log) now).1 = false) :
    (SlidingWindowLog.stepKey cfg (some log) now).2 =
      log.filter (fun ts => decide (now - (cfg.window_size : ℚ) < ts)) := by
  simp only [SlidingWindowLog.stepKey] at hdeny ⊢
  split at hdeny
  · simp at hdeny
  · rename_i h
    rw [if_neg h]

/-- Witness for `slidingWindowLog_denial_frame` at `windowSize = 60`,
`maxRequests = 0`, empty log, `now = 0` (the call denies). -/
theorem slidingWindowLog_denial_frame_witness :
    (SlidingWindowLog.stepKey ⟨60, 0⟩ (some []) 0).1 = false ∧
    (SlidingWindowLog.stepKey ⟨60, 0⟩ (some []) 0).2 =
      List.filter (fun ts => decide ((0 : ℚ) - ((60 : Int) : ℚ) < ts)) [] :=
  ⟨by simp [SlidingWindowLog.stepKey],
    slidingWindowLog_denial_frame ⟨60, 0⟩ [] 0 (by simp [SlidingWindowLog.stepKey])⟩

/-- C7 counterexample: constructing a limiter with non-positive
parameters is not rejected at construction time: the constructors
succeed and store the values unchanged (the source performs no
validation). -/
theorem init_no_validation_counterexample :
    FixedWindowCounter.init 0 (-1) = .ok ⟨0, -1⟩ ∧
    TokenBucket.init (-1) 0 = .ok ⟨-1, 0⟩ ∧
    LeakyBucket.init 0 (-1) = .ok ⟨0, -1⟩ :=
  ⟨rfl, rfl, rfl⟩

/-- C7 amended: the five constructors perform no validation at all:
any arguments, including non-positive ones, are accepted and stored,
and misconfiguration can only surface later, during `is_allowed`. -/
theorem init_no_validation (ws mr cap : Int) (rr lr : ℚ) :
    FixedWindowCounter.init ws mr = .ok ⟨ws, mr⟩ ∧
    SlidingWindowLog.init ws mr = .ok ⟨ws, mr⟩ ∧
    SlidingWindowCounter.init ws mr = .ok ⟨ws, mr⟩ ∧
    TokenBucket.init cap rr = .ok ⟨cap, rr⟩ ∧
    LeakyBucket.init cap lr = .ok ⟨cap, lr⟩ :=
  ⟨rfl, rfl, rfl, rfl, rfl⟩

/-- C1 counterexample: a fresh `TokenBucket` with capacity 1 allows TWO
immediate calls (the claim says the second must be denied): the first
call initializes the bucket to full capacity without consuming a
token. -/
theorem tokenBucket_burst_counterexample :
    (TokenBucket.runKey ⟨1, 1⟩ none [(0 : ℚ), 0]).1 = [true, true] := by
  simp [TokenBucket.runKey, TokenBucket.stepKey]

/-- C10: an `is_allowed` call for client `k` leaves every other client's
stored entry untouched, and its decision depends only on client `k`'s
own entry, for each of the five limiters. -/
theorem step_isolation {K : Type} [DecidableEq K] (k kx : K)
    (fw : FixedWindowCounter) (σf τf : K → Option (Int × Int)) (nf : Int)
    (sl : SlidingWindowLog) (σs τs : K → Option (List ℚ)) (ns : ℚ)
    (sc : SlidingWindowCounter) (σc τc : K → Option (List ℚ)) (nc : ℚ)
    (tb : TokenBucket) (σt τt : K → Option (ℚ × ℚ)) (nt : ℚ)
    (lb : LeakyBucket) (σl τl : K → Option (ℚ × ℚ)) (nl : ℚ)
    (hne : kx ≠ k)
    (hf : σf k = τf k) (hs : σs k = τs k) (hc : σc k = τc k)
    (ht : σt k = τt k) (hl : σl k = τl k) :
    ((FixedWindowCounter.step fw σf k nf).2 kx = σf kx ∧
      (FixedWindowCounter.step fw σf k nf).1 = (FixedWindowCounter.step fw τf k nf).1) ∧
    ((SlidingWindowLog.step sl σs k ns).2 kx = σs kx ∧
      (SlidingWindowLog.step sl σs k ns).1 = (SlidingWindowLog.step sl τs k ns).1) ∧
    ((SlidingWindowCounter.step sc σc k nc).2 kx = σc kx ∧
      (SlidingWindowCounter.step sc σc k nc).1 = (SlidingWindowCounter.step sc τc k nc).1) ∧
    ((TokenBucket.step tb σt k nt).2 kx = σt kx ∧
      (TokenBucket.step tb σt k nt).1 = (TokenBucket.step tb τt k nt).1) ∧
    ((LeakyBucket.step lb σl k nl).2 kx = σl kx ∧
      (LeakyBucket.step lb σl k nl).1 = (LeakyBucket.step lb τl k nl).1) := by
  refine ⟨⟨?_, ?_⟩, ⟨?_, ?_⟩, ⟨?_, ?_⟩, ⟨?_, ?_⟩, ⟨?_, ?_⟩⟩ <;>
    simp [FixedWindowCounter.step, SlidingWindowLog.step, SlidingWindowCounter.step,
      TokenBucket.step, LeakyBucket.step, Function.update_noteq hne, hf, hs, hc, ht, hl]

/-- Witness for `step_isolation`: clients `0` and `1` over `ℕ`, all five
limiters on empty dictionaries at time `0`. -/
theorem step_isolation_witness :
    (1 : ℕ) ≠ 0 ∧
    (((FixedWindowCounter.step ⟨60, 10⟩ (fun _ => none) (0 : ℕ) 0).2 1 = none ∧
      (FixedWindowCounter.step ⟨60, 10⟩ (fun _ => none) (0 : ℕ) 0).1 =
        (FixedWindowCounter.step ⟨60, 10⟩ (fun _ => none) (0 : ℕ) 0).1) ∧
    ((SlidingWindowLog.step ⟨60, 10⟩ (fun _ => none) (0 : ℕ) 0).2 1 = none ∧
      (SlidingWindowLog.step ⟨60, 10⟩ (fun _ => none) (0 : ℕ) 0).1 =
        (SlidingWindowLog.step ⟨60, 10⟩ (fun _ => none) (0 : ℕ) 0).1) ∧
    ((SlidingWindowCounter.step ⟨60, 10⟩ (fun _ => none) (0 : ℕ) 0).2 1 = none ∧
      (SlidingWindowCounter.step ⟨60, 10⟩ (fun _ => none) (0 : ℕ) 0).1 =
        (SlidingWindowCounter.step ⟨60, 10⟩ (fun _ => none) (0 : ℕ) 0).1) ∧
    ((TokenBucket.step ⟨10, 1⟩ (fun _ => none) (0 : ℕ) 0).2 1 = none ∧
      (TokenBucket.step ⟨10, 1⟩ (fun _ => none) (0 : ℕ) 0).1 =
        (TokenBucket.step ⟨10, 1⟩ (fun _ => none) (0 : ℕ) 0).1) ∧
    ((LeakyBucket.step ⟨10, 1⟩ (fun _ => none) (0 : ℕ) 0).2 1 = none ∧
      (LeakyBucket.step ⟨10, 1⟩ (fun _ => none) (0 : ℕ) 0).1 =
        (LeakyBucket.step ⟨10, 1⟩ (fun _ => none) (0 : ℕ) 0).1)) :=
  ⟨by decide,
    step_isolation 0 1 ⟨60, 10⟩ (fun _ => none) (fun _ => none) 0
      ⟨60, 10⟩ (fun _ => none) (fun _ => none) 0
      ⟨60, 10⟩ (fun _ => none) (fun _ => none) 0
      ⟨10, 1⟩ (fun _ => none) (fun _ => none) 0
      ⟨10, 1⟩ (fun _ => none) (fun _ => none) 0
      (by decide) rfl rfl rfl rfl rfl⟩

/-- The per-key transitions of the two sliding-window variants coincide:
the `in`-guarded prune of the log variant and the unconditional
`defaultdict` prune of the counter variant compute the same result. -/
theorem SlidingWindowCounter.stepKey_eq_log (W N : Int) (st : Option (List ℚ)) (now : ℚ) :
    SlidingWindowCounter.stepKey ⟨W, N⟩ st now = SlidingWindowLog.stepKey ⟨W, N⟩ st now := by
  cases st <;> rfl

/-- Whole-run equality of the two sliding-window variants, any start. -/
theorem SlidingWindowCounter.run_eq_log {K : Type} [DecidableEq K] (W N : Int)
    (events : List (K × ℚ)) (σ : K → Option (List ℚ)) :
    SlidingWindowCounter.run ⟨W, N⟩ σ events = SlidingWindowLog.run ⟨W, N⟩ σ events := by
  induction events generalizing σ with
  | nil => rfl
  | cons e es ih =>
    simp only [SlidingWindowCounter.run, SlidingWindowLog.run,
      SlidingWindowCounter.step, SlidingWindowLog.step,
      SlidingWindowCounter.stepKey_eq_log, ih]

/-- C4: for every sequence of `(client, time)` events,
`SlidingWindowCounter.is_allowed` returns exactly the same sequence of
decisions as `SlidingWindowLog.is_allowed` with the same `windowSize`
and `maxRequests`: the two strategies are externally equivalent. -/
theorem slidingWindow_counter_log_equiv {K : Type} [DecidableEq K] (W N : Int)
    (events : List (K × ℚ)) :
    (SlidingWindowCounter.run ⟨W, N⟩ (fun _ => none) events).1 =
      (SlidingWindowLog.run ⟨W, N⟩ (fun _ => none) events).1 := by
  rw [SlidingWindowCounter.run_eq_log]

/-- Unfolding lemma: one `FixedWindowCounter.runKey` call on a
non-empty time list. -/
theorem FixedWindowCounter.fw_runKey_cons (cfg : FixedWindowCounter)
    (st : Option (Int × Int)) (t : Int) (ts : List Int) :
    FixedWindowCounter.runKey cfg st (t :: ts) =
      ((FixedWindowCounter.stepKey cfg st t).1 ::
        (FixedWindowCounter.runKey cfg (some (FixedWindowCounter.stepKey cfg st t).2) ts).1,
       (FixedWindowCounter.runKey cfg (some (FixedWindowCounter.stepKey cfg st t).2) ts).2) :=
  rfl

/-- Unfolding lemma: one `TokenBucket.runKey` call on a non-empty list. -/
theorem TokenBucket.tb_runKey_cons (cfg : TokenBucket)
    (st : Option (ℚ × ℚ)) (t : ℚ) (ts : List ℚ) :
    TokenBucket.runKey cfg st (t :: ts) =
      ((TokenBucket.stepKey cfg st t).1 ::
        (TokenBucket.runKey cfg (some (TokenBucket.stepKey cfg st t).2) ts).1,
       (TokenBucket.runKey cfg (some (TokenBucket.stepKey cfg st t).2) ts).2) :=
  rfl

/-- Unfolding lemma: one `LeakyBucket.runKey` call on a non-empty list. -/
theorem LeakyBucket.lb_runKey_cons (cfg : LeakyBucket)
    (st : Option (ℚ × ℚ)) (t : ℚ) (ts : List ℚ) :
    LeakyBucket.runKey cfg st (t :: ts) =
      ((LeakyBucket.stepKey cfg st t).1 ::
        (LeakyBucket.runKey cfg (some (LeakyBucket.stepKey cfg st t).2) ts).1,
       (LeakyBucket.runKey cfg (some (LeakyBucket.stepKey cfg st t).2) ts).2) :=
  rfl

/-- Running the fixed window counter on calls that all fall in the
aligned window `w`, starting from a stored count `c` with room for all
of them, allows every call and ends with count `c + length`. -/
theorem FixedWindowCounter.runKey_same_window (W N w : Int) :
    ∀ (ts : List Int) (c : Int),
      (∀ t ∈ ts, Int.fdiv t W * W = w) →
      c + ts.length ≤ N →
      FixedWindowCounter.runKey ⟨W, N⟩ (some (w, c)) ts =
        (List.replicate ts.length true, some (w, c + ts.length)) := by
  intro ts
  induction ts with
  | nil =>
    intro c _ _
    simp [FixedWindowCounter.runKey]
  | cons t ts ih =>
    intro c hw hle
    have hcw : Int.fdiv t W * W = w := hw t (by simp)
    simp only [List.length_cons] at hle
    push_cast at hle
    have hcN : c < N := by omega
    have hih := ih (c + 1) (fun u hu => hw u (by simp [hu])) (by omega)
    have hst : (c + (((ts.length + 1) : ℕ) : Int)) = (c + 1) + ts.length := by
      push_cast
      ring
    simp [FixedWindowCounter.runKey, FixedWindowCounter.stepKey, hcw, hcN, hih,
      List.replicate_succ, hst]
    omega

/-- C5: with `maxRequests = N ≥ 1`, `N` `FixedWindowCounter.is_allowed`
calls whose times all lie in one aligned window `w` (starting from no
stored state) all allow, ending with stored pair `(w, N)`; a further
call in the same window denies leaving the stored pair unchanged; and
the first call in the next window allows. -/
theorem fixedWindow_behavior (W N : Int) (ts : List Int) (w t_extra t_next : Int)
    (hW : 0 < W) (hN : 1 ≤ N) (hlen : (ts.length : Int) = N)
    (hw : ∀ t ∈ ts, Int.fdiv t W * W = w)
    (hextra : Int.fdiv t_extra W * W = w)
    (hnext : Int.fdiv t_next W * W = w + W) :
    FixedWindowCounter.runKey ⟨W, N⟩ none ts = (List.replicate ts.length true, some (w, N)) ∧
    FixedWindowCounter.stepKey ⟨W, N⟩ (some (w, N)) t_extra = (false, (w, N)) ∧
    FixedWindowCounter.stepKey ⟨W, N⟩ (some (w, N)) t_next = (true, (w + W, 1)) := by
  refine ⟨?_, ?_, ?_⟩
  · cases ts with
    | nil =>
      exfalso
      simp at hlen
      omega
    | cons t0 rest =>
      have h0 : Int.fdiv t0 W * W = w := hw t0 (by simp)
      simp only [List.length_cons] at hlen
      push_cast at hlen
      have hrun := FixedWindowCounter.runKey_same_window W N w rest 1
        (fun u hu => hw u (by simp [hu])) (by omega)
      have hN1 : 1 + (rest.length : Int) = N := by omega
      simp [FixedWindowCounter.runKey, FixedWindowCounter.stepKey, h0, hrun,
        List.replicate_succ, hN1]
  · simp [FixedWindowCounter.stepKey, hextra]
  · have hne : ¬ (w = w + W) := by omega
    simp [FixedWindowCounter.stepKey, hnext, hne]

/-- Witness for `fixedWindow_behavior`: `windowSize = 60`,
`maxRequests = 1`, one call at time `0`, an extra same-window call at
time `59`, and a next-window call at time `60`. -/
theorem fixedWindow_behavior_witness :
    (0 : Int) < 60 ∧ (1 : Int) ≤ 1 ∧ (([(0 : Int)].length : Int) = 1) ∧
    (∀ t ∈ [(0 : Int)], Int.fdiv t 60 * 60 = 0) ∧
    Int.fdiv 59 60 * 60 = 0 ∧ Int.fdiv 60 60 * 60 = 0 + 60 ∧
    (FixedWindowCounter.runKey ⟨60, 1⟩ none [(0 : Int)] =
      (List.replicate [(0 : Int)].length true, some (0, 1)) ∧
    FixedWindowCounter.stepKey ⟨60, 1⟩ (some (0, 1)) 59 = (false, (0, 1)) ∧
    FixedWindowCounter.stepKey ⟨60, 1⟩ (some (0, 1)) 60 = (true, (0 + 60, 1))) :=
  ⟨by decide, by decide, by decide, by decide, by decide, by decide,
    fixedWindow_behavior 60 1 [0] 0 59 60 (by decide) (by decide) (by decide)
      (by decide) (by decide) (by decide)⟩

/-- Running the leaky bucket on `n + 1` calls at one instant `t`,
starting from a stored level `x ≥ 0` with `x + n = capacity`, allows
the first `n` calls and denies the last, ending exactly full. -/
theorem LeakyBucket.runKey_fill (C : Int) (rate : ℚ) (t : ℚ) :
    ∀ (n : ℕ) (x : ℚ), 0 ≤ x → x + n = (C : ℚ) →
      LeakyBucket.runKey ⟨C, rate⟩ (some (x, t)) (List.replicate (n + 1) t) =
        (List.replicate n true ++ [false], some ((C : ℚ), t)) := by
  intro n
  induction n with
  | zero =>
    intro x hx hxC
    have hxC1 : x = (C : ℚ) := by push_cast at hxC; linarith
    subst hxC1
    simp [LeakyBucket.runKey, LeakyBucket.stepKey, max_eq_right hx]
  | succ n ih =>
    intro x hx hxC
    have hlt : x < (C : ℚ) := by
      push_cast at hxC
      linarith
    have hih := ih (x + 1) (by linarith) (by push_cast at hxC ⊢; linarith)
    rw [List.replicate_succ] at hih
    rw [List.replicate_succ, LeakyBucket.lb_runKey_cons]
    simp [LeakyBucket.stepKey, max_eq_right hx, if_pos hlt, hih, List.replicate_succ]

/-- C6: a fresh `LeakyBucket` with capacity `C ≥ 1` initializes the
stored state to `(1, now)` on the first call and allows; `C` immediate
calls (no time elapsing) all allow and the `(C+1)`-th immediate call
denies. -/
theorem leakyBucket_burst (C : Int) (rate : ℚ) (t : ℚ) (hC : 1 ≤ C) :
    LeakyBucket.stepKey ⟨C, rate⟩ none t = (true, (1, t)) ∧
    (LeakyBucket.runKey ⟨C, rate⟩ none (List.replicate (C.toNat + 1) t)).1 =
      List.replicate C.toNat true ++ [false] := by
  refine ⟨rfl, ?_⟩
  obtain ⟨m, hm⟩ : ∃ m : ℕ, C.toNat = m + 1 := ⟨C.toNat - 1, by omega⟩
  have hCcast : ((C.toNat : ℕ) : ℚ) = (C : ℚ) := by
    exact_mod_cast congrArg (fun z : ℤ => (z : ℚ)) (Int.toNat_of_nonneg (by omega))
  have hfill := LeakyBucket.runKey_fill C rate t m 1 (by norm_num)
    (by rw [← hCcast, hm]; push_cast; ring)
  rw [List.replicate_succ] at hfill
  rw [hm, List.replicate_succ, LeakyBucket.lb_runKey_cons]
  simp [LeakyBucket.stepKey, hfill, List.replicate_succ]

/-- Witness for `leakyBucket_burst` at capacity `2`, leak rate `1`,
time `0`. -/
theorem leakyBucket_burst_witness :
    (1 : Int) ≤ 2 ∧
    (LeakyBucket.stepKey ⟨2, 1⟩ none 0 = (true, (1, 0)) ∧
    (LeakyBucket.runKey ⟨2, 1⟩ none (List.replicate ((2 : Int).toNat + 1) 0)).1 =
      List.replicate (2 : Int).toNat true ++ [false]) :=
  ⟨by decide, leakyBucket_burst 2 1 0 (by decide)⟩

/-- Draining a token bucket by calls at one instant `t`: starting from a
stored amount `x` with `n ≤ x < n + 1` and `x ≤ capacity`, the next `n`
immediate calls allow and the `(n+1)`-th denies. -/
theorem TokenBucket.runKey_drain (C : Int) (rate : ℚ) (t : ℚ) :
    ∀ (n : ℕ) (x : ℚ), (n : ℚ) ≤ x → x < n + 1 → x ≤ (C : ℚ) →
      (TokenBucket.runKey ⟨C, rate⟩ (some (x, t)) (List.replicate (n + 1) t)).1 =
        List.replicate n true ++ [false] := by
  intro n
  induction n with
  | zero =>
    intro x hn hx1 hxC
    push_cast at hn hx1
    have hnot : ¬ (1 : ℚ) ≤ x := by linarith
    rw [List.replicate_succ, TokenBucket.tb_runKey_cons]
    simp [TokenBucket.stepKey, min_eq_right hxC, hnot, TokenBucket.runKey]
  | succ n ih =>
    intro x hn hx1 hxC
    have h1 : (1 : ℚ) ≤ x := by
      push_cast at hn
      linarith
    have hih := ih (x - 1) (by push_cast at hn ⊢; linarith)
      (by push_cast at hx1 ⊢; linarith) (by linarith)
    rw [List.replicate_succ] at hih
    rw [List.replicate_succ, TokenBucket.tb_runKey_cons]
    simp [TokenBucket.stepKey, min_eq_right hxC, if_pos h1, hih, List.replicate_succ]

/-- C1 amended: a fresh `TokenBucket` with capacity `C ≥ 1` allows
`C + 1` immediate calls — the first call initializes the bucket to full
capacity without consuming a token — and the `(C+2)`-th immediate call
denies. -/
theorem tokenBucket_burst_amended (C : Int) (rate : ℚ) (t : ℚ) (hC : 1 ≤ C) :
    (TokenBucket.runKey ⟨C, rate⟩ none (List.replicate (C.toNat + 2) t)).1 =
      List.replicate (C.toNat + 1) true ++ [false] := by
  have hCcast : ((C.toNat : ℕ) : ℚ) = (C : ℚ) := by
    exact_mod_cast congrArg (fun z : ℤ => (z : ℚ)) (Int.toNat_of_nonneg (by omega))
  have hdrain := TokenBucket.runKey_drain C rate t C.toNat (C : ℚ) (le_of_eq hCcast)
    (by rw [← hCcast]; linarith) le_rfl
  rw [List.replicate_succ] at hdrain
  rw [show C.toNat + 2 = (C.toNat + 1) + 1 from rfl, List.replicate_succ,
    TokenBucket.tb_runKey_cons]
  simp [TokenBucket.stepKey, hdrain, List.replicate_succ]

/-- Witness for `tokenBucket_burst_amended` at capacity `1`, refill
rate `0`, time `0`. -/
theorem tokenBucket_burst_amended_witness :
    (1 : Int) ≤ 1 ∧
    (TokenBucket.runKey ⟨1, 0⟩ none (List.replicate ((1 : Int).toNat + 2) 0)).1 =
      List.replicate ((1 : Int).toNat + 1) true ++ [false] :=
  ⟨by decide, tokenBucket_burst_amended 1 0 0 (by decide)⟩

/-- One refill-and-decide step on an in-range bucket stays in range:
tokens remain within `[0, capacity]` and the stored time becomes `now`. -/
theorem TokenBucket.stepKey_bound (cfg : TokenBucket) (hC : 1 ≤ cfg.capacity)
    (hr : 0 ≤ cfg.refill_rate) (tok last now : ℚ)
    (h0 : 0 ≤ tok) (hcap : tok ≤ (cfg.capacity : ℚ)) (hlast : last ≤ now) :
    0 ≤ (TokenBucket.stepKey cfg (some (tok, last)) now).2.1 ∧
    (TokenBucket.stepKey cfg (some (tok, last)) now).2.1 ≤ (cfg.capacity : ℚ) ∧
    (TokenBucket.stepKey cfg (some (tok, last)) now).2.2 = now := by
  have hcap0 : (0 : ℚ) ≤ (cfg.capacity : ℚ) := by
    have h : (0 : ℤ) ≤ cfg.capacity := by omega
    exact_mod_cast h
  have hadd : 0 ≤ tok + (now - last) * cfg.refill_rate :=
    add_nonneg h0 (mul_nonneg (by linarith) hr)
  have hmn : 0 ≤ min ((cfg.capacity : ℚ)) (tok + (now - last) * cfg.refill_rate) :=
    le_min hcap0 hadd
  have hmx : min ((cfg.capacity : ℚ)) (tok + (now - last) * cfg.refill_rate) ≤
      (cfg.capacity : ℚ) :=
    min_le_left _ _
  simp only [TokenBucket.stepKey]
  split
  · rename_i h
    refine ⟨?_, ?_, rfl⟩ <;> simp only [] <;> linarith
  · exact ⟨hmn, hmx, rfl⟩

/-- A whole-dictionary `TokenBucket` step preserves the invariant that
every stored bucket has `0 ≤ tokens ≤ capacity` and a refill time at
most `now`. -/
theorem TokenBucket.step_inv {K : Type} [DecidableEq K] (cfg : TokenBucket)
    (hC : 1 ≤ cfg.capacity) (hr : 0 ≤ cfg.refill_rate)
    (σ : K → Option (ℚ × ℚ)) (k : K) (now : ℚ)
    (hσ : ∀ k2 s, σ k2 = some s → 0 ≤ s.1 ∧ s.1 ≤ (cfg.capacity : ℚ) ∧ s.2 ≤ now) :
    ∀ k2 s, (TokenBucket.step cfg σ k now).2 k2 = some s →
      0 ≤ s.1 ∧ s.1 ≤ (cfg.capacity : ℚ) ∧ s.2 ≤ now := by
  intro k2 s hs
  by_cases hk : k2 = k
  · subst hk
    simp only [TokenBucket.step, Function.update_same] at hs
    cases hσk : σ k2 with
    | none =>
      rw [hσk] at hs
      simp only [TokenBucket.stepKey] at hs
      have hcap0 : (0 : ℚ) ≤ (cfg.capacity : ℚ) := by
        have h : (0 : ℤ) ≤ cfg.capacity := by omega
        exact_mod_cast h
      cases hs
      exact ⟨hcap0, le_refl _, le_refl _⟩
    | some p =>
      obtain ⟨tok, last⟩ := p
      obtain ⟨h0, hcap, hlast⟩ := hσ k2 (tok, last) hσk
      rw [hσk] at hs
      have hb := TokenBucket.stepKey_bound cfg hC hr tok last now h0 hcap hlast
      cases hs
      exact ⟨hb.1, hb.2.1, le_of_eq hb.2.2⟩
  · rw [show (TokenBucket.step cfg σ k now).2 k2 = σ k2 from
      Function.update_noteq hk _ _] at hs
    exact hσ k2 s hs

/-- Running any event sequence with non-decreasing times from an
in-range dictionary keeps every stored bucket in `[0, capacity]`. -/
theorem TokenBucket.run_inv {K : Type} [DecidableEq K] (cfg : TokenBucket)
    (hC : 1 ≤ cfg.capacity) (hr : 0 ≤ cfg.refill_rate) :
    ∀ (events : List (K × ℚ)) (σ : K → Option (ℚ × ℚ)) (b : ℚ),
      (∀ k s, σ k = some s → 0 ≤ s.1 ∧ s.1 ≤ (cfg.capacity : ℚ) ∧ s.2 ≤ b) →
      List.Chain' (· ≤ ·) (b :: events.map Prod.snd) →
      ∀ k s, TokenBucket.run cfg σ events k = some s →
        0 ≤ s.1 ∧ s.1 ≤ (cfg.capacity : ℚ) := by
  intro events
  induction events with
  | nil =>
    intro σ b hσ _ k s hs
    exact ⟨(hσ k s hs).1, (hσ k s hs).2.1⟩
  | cons e es ih =>
    intro σ b hσ hchain k s hs
    obtain ⟨hbe, hch2⟩ := List.chain'_cons.mp (by simpa using hchain)
    have hσe : ∀ k2 s2, σ k2 = some s2 →
        0 ≤ s2.1 ∧ s2.1 ≤ (cfg.capacity : ℚ) ∧ s2.2 ≤ e.2 :=
      fun k2 s2 h2 =>
        ⟨(hσ k2 s2 h2).1, (hσ k2 s2 h2).2.1, le_trans (hσ k2 s2 h2).2.2 hbe⟩
    have hstep := TokenBucket.step_inv cfg hC hr σ e.1 e.2 hσe
    exact ih (TokenBucket.step cfg σ e.1 e.2).2 e.2 hstep hch2 k s
      (by simpa [TokenBucket.run] using hs)

/-- C8: for a `TokenBucket` with `capacity ≥ 1` and (per the spec's
valid-configuration domain) a non-negative refill rate, after every
prefix of a sequence of `is_allowed` calls at non-decreasing times
starting from an empty dictionary, every client's stored token count
satisfies `0 ≤ tokens ≤ capacity`. -/
theorem tokenBucket_tokens_bounded {K : Type} [DecidableEq K] (cfg : TokenBucket)
    (events pre suf : List (K × ℚ)) (k : K) (s : ℚ × ℚ)
    (hC : 1 ≤ cfg.capacity) (hr : 0 ≤ cfg.refill_rate)
    (hsplit : events = pre ++ suf)
    (hchain : List.Chain' (· ≤ ·) (events.map Prod.snd))
    (hrun : TokenBucket.run cfg (fun _ => none) pre k = some s) :
    0 ≤ s.1 ∧ s.1 ≤ (cfg.capacity : ℚ) := by
  subst hsplit
  rw [List.map_append] at hchain
  have hpre : List.Chain' (· ≤ ·) (pre.map Prod.snd) := (List.chain'_append.mp hchain).1
  cases pre with
  | nil => simp [TokenBucket.run] at hrun
  | cons e es =>
    have hch : List.Chain' (· ≤ ·) (e.2 :: ((e :: es).map Prod.snd)) := by
      simp only [List.map_cons] at hpre ⊢
      exact List.chain'_cons.mpr ⟨le_refl _, hpre⟩
    exact TokenBucket.run_inv cfg hC hr (e :: es) (fun _ => none) e.2
      (fun k2 s2 h2 => by simp at h2) hch k s hrun

/-- Witness for `tokenBucket_tokens_bounded`: capacity 1, refill rate 1,
one call by client `0` at time `0`; the stored bucket is `(1, 0)`. -/
theorem tokenBucket_tokens_bounded_witness :
    (1 : Int) ≤ 1 ∧ (0 : ℚ) ≤ 1 ∧
    ([((0 : ℕ), (0 : ℚ))] = [((0 : ℕ), (0 : ℚ))] ++ []) ∧
    List.Chain' (· ≤ ·) ([((0 : ℕ), (0 : ℚ))].map Prod.snd) ∧
    TokenBucket.run ⟨1, 1⟩ (fun _ => none) [((0 : ℕ), (0 : ℚ))] 0 =
      some (((1 : Int) : ℚ), 0) ∧
    (0 ≤ ((((1 : Int) : ℚ)), (0 : ℚ)).1 ∧
      ((((1 : Int) : ℚ)), (0 : ℚ)).1 ≤ (((1 : Int) : ℚ))) := by
  have hrun : TokenBucket.run ⟨1, 1⟩ (fun _ => none) [((0 : ℕ), (0 : ℚ))] 0 =
      some (((1 : Int) : ℚ), 0) := by
    simp [TokenBucket.run, TokenBucket.step, TokenBucket.stepKey]
  exact ⟨by decide, by norm_num, rfl, by simp, hrun,
    tokenBucket_tokens_bounded ⟨1, 1⟩ [((0 : ℕ), (0 : ℚ))] [((0 : ℕ), (0 : ℚ))] []
      0 (((1 : Int) : ℚ), 0) (by decide) (by norm_num) rfl (by simp) hrun⟩

/-- `acceptedTimes` of a trace starting with an allowed call. -/
theorem acceptedTimes_cons_true (v : ℚ) (tr : List (ℚ × Bool)) :
    acceptedTimes ((v, true) :: tr) = v :: acceptedTimes tr := by
  simp [acceptedTimes]

/-- `acceptedTimes` of a trace starting with a denied call. -/
theorem acceptedTimes_cons_false (v : ℚ) (tr : List (ℚ × Bool)) :
    acceptedTimes ((v, false) :: tr) = acceptedTimes tr := by
  simp [acceptedTimes]

/-- `countIn` distributes over list append. -/
theorem countIn_append (W : Int) (t : ℚ) (A B : List ℚ) :
    countIn W t (A ++ B) = countIn W t A + countIn W t B := by
  simp [countIn, List.filter_append]

/-- `countIn` is bounded by the list length. -/
theorem countIn_le_length (W : Int) (t : ℚ) (A : List ℚ) :
    countIn W t A ≤ A.length :=
  List.length_filter_le _ _

/-- A singleton contributes at most one to `countIn`. -/
theorem countIn_singleton_le (W : Int) (t v : ℚ) : countIn W t [v] ≤ 1 :=
  countIn_le_length W t [v]

/-- A time beyond `t` lies outside the trailing interval. -/
theorem countIn_singleton_out (W : Int) (t v : ℚ) (h : t < v) :
    countIn W t [v] = 0 := by
  have hnot : ¬ (t - (W : ℚ) < v ∧ v ≤ t) := fun hc => absurd h (not_lt.mpr hc.2)
  simp [countIn, hnot]

/-- Filtering by a predicate that holds on the whole trailing interval
does not change `countIn`. -/
theorem countIn_filter_eq (W : Int) (t : ℚ) (A : List ℚ) (p : ℚ → Bool)
    (hp : ∀ s : ℚ, t - (W : ℚ) < s ∧ s ≤ t → p s = true) :
    countIn W t (A.filter p) = countIn W t A := by
  simp only [countIn]
  rw [List.filter_filter]
  congr 1
  apply List.filter_congr
  intro s _
  by_cases h : t - (W : ℚ) < s ∧ s ≤ t
  · simp [h, hp s h]
  · simp [h]

/-- Pruning twice with a later (larger) cutoff equals pruning once with
the later cutoff. -/
theorem filter_lt_comp (A : List ℚ) (a b : ℚ) (hab : a ≤ b) :
    (A.filter (fun s => decide (a < s))).filter (fun s => decide (b < s)) =
      A.filter (fun s => decide (b < s)) := by
  rw [List.filter_filter]
  apply List.filter_congr
  intro s _
  by_cases hb : b < s
  · simp [hb, lt_of_le_of_lt hab hb]
  · simp [hb]

/-- Unfolding lemma: one `SlidingWindowLog.traceKey` step. -/
theorem SlidingWindowLog.traceKey_cons (cfg : SlidingWindowLog) (st : Option (List ℚ))
    (t : ℚ) (ts : List ℚ) :
    SlidingWindowLog.traceKey cfg st (t :: ts) =
      (t, (SlidingWindowLog.stepKey cfg st t).1) ::
        SlidingWindowLog.traceKey cfg (some (SlidingWindowLog.stepKey cfg st t).2) ts :=
  rfl

/-- `SlidingWindowLog.stepKey` on a present key, written out. -/
theorem SlidingWindowLog.stepKey_some (cfg : SlidingWindowLog) (log : List ℚ) (now : ℚ) :
    SlidingWindowLog.stepKey cfg (some log) now =
      (if ((log.filter (fun ts => decide (now - (cfg.window_size : ℚ) < ts))).length : Int) <
          cfg.max_requests
       then (true, log.filter (fun ts => decide (now - (cfg.window_size : ℚ) < ts)) ++ [now])
       else (false, log.filter (fun ts => decide (now - (cfg.window_size : ℚ) < ts)))) :=
  rfl

/-- A trace step on a call that is allowed. -/
theorem SlidingWindowLog.traceKey_cons_allow (cfg : SlidingWindowLog) (log : List ℚ)
    (v : ℚ) (rest : List ℚ)
    (h : ((log.filter (fun s => decide (v - (cfg.window_size : ℚ) < s))).length : Int) <
      cfg.max_requests) :
    SlidingWindowLog.traceKey cfg (some log) (v :: rest) =
      (v, true) :: SlidingWindowLog.traceKey cfg
        (some (log.filter (fun s => decide (v - (cfg.window_size : ℚ) < s)) ++ [v])) rest := by
  rw [SlidingWindowLog.traceKey_cons, SlidingWindowLog.stepKey_some, if_pos h]

/-- A trace step on a call that is denied. -/
theorem SlidingWindowLog.traceKey_cons_deny (cfg : SlidingWindowLog) (log : List ℚ)
    (v : ℚ) (rest : List ℚ)
    (h : ¬ ((log.filter (fun s => decide (v - (cfg.window_size : ℚ) < s))).length : Int) <
      cfg.max_requests) :
    SlidingWindowLog.traceKey cfg (some log) (v :: rest) =
      (v, false) :: SlidingWindowLog.traceKey cfg
        (some (log.filter (fun s => decide (v - (cfg.window_size : ℚ) < s)))) rest := by
  rw [SlidingWindowLog.traceKey_cons, SlidingWindowLog.stepKey_some, if_neg h]

/-- Main invariant of the sliding window log: if the stored log is the
accepted-so-far list pruned at the previous call time `u`, and the
accepted calls in the trailing interval `(t - W, t]` number at most
`maxRequests`, then that bound keeps holding over the remaining calls. -/
theorem SlidingWindowLog.trace_bound_aux (cfg : SlidingWindowLog) (t : ℚ)
    (hW : 0 < cfg.window_size) :
    ∀ (ts : List ℚ) (A log : List ℚ) (u : ℚ),
      List.Chain' (· ≤ ·) (u :: ts) →
      log = A.filter (fun s => decide (u - (cfg.window_size : ℚ) < s)) →
      (countIn cfg.window_size t A : Int) ≤ cfg.max_requests →
      (countIn cfg.window_size t
          (A ++ acceptedTimes (SlidingWindowLog.traceKey cfg (some log) ts)) : Int) ≤
        cfg.max_requests := by
  intro ts
  induction ts with
  | nil =>
    intro A log u _ _ hA
    simpa [SlidingWindowLog.traceKey, acceptedTimes] using hA
  | cons v rest ih =>
    intro A log u hchain hlog hA
    have huv : u ≤ v := (List.chain'_cons.mp hchain).1
    have hch2 : List.Chain' (· ≤ ·) (v :: rest) := (List.chain'_cons.mp hchain).2
    have hWQ : (0 : ℚ) < (cfg.window_size : ℚ) := by exact_mod_cast hW
    have hpr : log.filter (fun s => decide (v - (cfg.window_size : ℚ) < s)) =
        A.filter (fun s => decide (v - (cfg.window_size : ℚ) < s)) := by
      rw [hlog]
      exact filter_lt_comp A _ _ (by linarith)
    by_cases hallow :
        (((A.filter (fun s => decide (v - (cfg.window_size : ℚ) < s))).length : Int) <
          cfg.max_requests)
    · rw [SlidingWindowLog.traceKey_cons_allow cfg log v rest (by rw [hpr]; exact hallow),
        hpr, acceptedTimes_cons_true, List.append_cons]
      apply ih (A ++ [v])
        (A.filter (fun s => decide (v - (cfg.window_size : ℚ) < s)) ++ [v]) v hch2
      · have hv : v - (cfg.window_size : ℚ) < v := by linarith
        simp [List.filter_append, hv]
      · rw [countIn_append]
        by_cases hvt : v ≤ t
        · have hpA : countIn cfg.window_size t
              (A.filter (fun s => decide (v - (cfg.window_size : ℚ) < s))) =
              countIn cfg.window_size t A := by
            apply countIn_filter_eq
            intro s hs
            have hvs : v - (cfg.window_size : ℚ) < s := by
              obtain ⟨h1, h2⟩ := hs
              linarith
            simp [hvs]
          have hle : countIn cfg.window_size t
              (A.filter (fun s => decide (v - (cfg.window_size : ℚ) < s))) ≤
              (A.filter (fun s => decide (v - (cfg.window_size : ℚ) < s))).length :=
            countIn_le_length _ _ _
          have h1 : countIn cfg.window_size t [v] ≤ 1 := countIn_singleton_le _ _ _
          omega
        · have h0 : countIn cfg.window_size t [v] = 0 :=
            countIn_singleton_out _ _ _ (by linarith)
          omega
    · rw [SlidingWindowLog.traceKey_cons_deny cfg log v rest (by rw [hpr]; exact hallow),
        hpr, acceptedTimes_cons_false]
      exact ih A (A.filter (fun s => decide (v - (cfg.window_size : ℚ) < s))) v hch2 rfl hA

/-- C2: for a `SlidingWindowLog` with positive `windowSize` and
non-negative `maxRequests`, and any sequence of `is_allowed` calls for
one key at non-decreasing times, the number of allowed calls whose call
times lie in any trailing interval `(t - windowSize, t]` never exceeds
`maxRequests`. -/
theorem slidingWindowLog_trailing_bound (cfg : SlidingWindowLog) (ts : List ℚ) (t : ℚ)
    (hW : 0 < cfg.window_size) (hN : 0 ≤ cfg.max_requests)
    (hchain : List.Chain' (· ≤ ·) ts) :
    (countIn cfg.window_size t
      (acceptedTimes (SlidingWindowLog.traceKey cfg none ts)) : Int) ≤
      cfg.max_requests := by
  cases ts with
  | nil =>
    simpa [SlidingWindowLog.traceKey, acceptedTimes, countIn] using hN
  | cons v rest =>
    have hnone : SlidingWindowLog.traceKey cfg none (v :: rest) =
        SlidingWindowLog.traceKey cfg (some []) (v :: rest) := rfl
    rw [hnone]
    have h := SlidingWindowLog.trace_bound_aux cfg t hW (v :: rest) [] [] v
      (List.chain'_cons.mpr ⟨le_refl v, hchain⟩) (by simp)
      (by simpa [countIn] using hN)
    simpa using h

/-- Witness for `slidingWindowLog_trailing_bound`: `windowSize = 60`,
`maxRequests = 1`, two calls at time `0`, trailing interval ending at
`t = 0` (the second call is denied, so one accepted time lies in the
interval). -/
theorem slidingWindowLog_trailing_witness :
    (0 : Int) < 60 ∧ (0 : Int) ≤ 1 ∧ List.Chain' (· ≤ ·) [(0 : ℚ), 0] ∧
    (countIn 60 0 (acceptedTimes (SlidingWindowLog.traceKey ⟨60, 1⟩ none [(0 : ℚ), 0])) :
      Int) ≤ 1 :=
  ⟨by decide, by decide, by simp,
    slidingWindowLog_trailing_bound ⟨60, 1⟩ [(0 : ℚ), 0] 0 (by decide) (by decide) (by simp)⟩

end RateLimit
